import Mathlib

/-!
# Invoice field-extraction and reconciliation engine: a shallow embedding

This file embeds the core helpers of `src/src/App.jsx` (a sales dashboard
that reconciles OCR'd invoice texts against a spreadsheet ledger) and proves
properties of them.

Modelling conventions:
* JavaScript strings are `String` / `List Char`; JS numbers are `ℚ`
  (the concrete values appearing in the program and in the properties are
  exactly representable, so rational arithmetic is the faithful idealization);
* a JS `Date` is modelled at day precision as its civil day number
  (an `Int`, days since 1970-01-01); `null` is `Option.none`;
* JS truthiness is made explicit at each use site (`0`, `""`, `null` are
  falsy, everything else relevant here is truthy);
* the regular expressions of the source are hand-compiled to explicit
  leftmost-match scanners with the same backtracking behaviour.
-/

namespace SalesDash

/-! ## TextNormalizer: `normalizeDigits` -/

/-- One character of the first `replace` in `normalizeDigits`:
`s.replace(/[٠-٩]/g, (d) => "٠١٢٣٤٥٦٧٨٩".indexOf(d))` maps each Eastern
Arabic-Indic digit to the (stringified) index, i.e. to its ASCII digit. -/
def arabicDigitToAscii (c : Char) : Char :=
  if c = '٠' then '0' else if c = '١' then '1' else if c = '٢' then '2'
  else if c = '٣' then '3' else if c = '٤' then '4' else if c = '٥' then '5'
  else if c = '٦' then '6' else if c = '٧' then '7' else if c = '٨' then '8'
  else if c = '٩' then '9' else c

/-- One character of the second `replace` in `normalizeDigits`:
`.replace(/[٬،]/g, ",")` (Arabic thousands separator and Arabic comma to
ASCII comma). -/
def arabicSepToComma (c : Char) : Char :=
  if c = '٬' ∨ c = '،' then ',' else c

/-- `normalizeDigits` from App.jsx: two global single-character `replace`s in
sequence.  (`(s || "")` never throws; a Lean `String` is already total.) -/
def normalizeDigits (s : String) : String :=
  String.mk ((s.data.map arabicDigitToAscii).map arabicSepToComma)

lemma normChar_idem (c : Char) :
    arabicSepToComma (arabicDigitToAscii (arabicSepToComma (arabicDigitToAscii c)))
      = arabicSepToComma (arabicDigitToAscii c) := by
  by_cases h0 : c = '٠'; · subst h0; decide
  by_cases h1 : c = '١'; · subst h1; decide
  by_cases h2 : c = '٢'; · subst h2; decide
  by_cases h3 : c = '٣'; · subst h3; decide
  by_cases h4 : c = '٤'; · subst h4; decide
  by_cases h5 : c = '٥'; · subst h5; decide
  by_cases h6 : c = '٦'; · subst h6; decide
  by_cases h7 : c = '٧'; · subst h7; decide
  by_cases h8 : c = '٨'; · subst h8; decide
  by_cases h9 : c = '٩'; · subst h9; decide
  by_cases ha : c = '٬'; · subst ha; decide
  by_cases hb : c = '،'; · subst hb; decide
  have hd : arabicDigitToAscii c = c := by
    unfold arabicDigitToAscii
    simp [h0, h1, h2, h3, h4, h5, h6, h7, h8, h9]
  have hs : arabicSepToComma c = c := by
    unfold arabicSepToComma
    simp [ha, hb]
  rw [hd, hs, hd, hs]

/-- C10: text normalization is idempotent. -/
theorem normalizeDigits_idempotent (s : String) :
    normalizeDigits (normalizeDigits s) = normalizeDigits s := by
  unfold normalizeDigits
  cases s with
  | mk data =>
    simp only [List.map_map]
    exact congrArg String.mk (List.map_congr_left fun c _ => normChar_idem c)

/-! ## Shared numeric-token machinery (`numbersInText`, keyword regexes) -/

/-- ASCII model of JS `toLowerCase` on one character (the only characters it
changes in the texts at hand are `A`–`Z`; digits, punctuation and Arabic
letters are unaffected). -/
def lowerChar (c : Char) : Char :=
  if c = 'A' then 'a' else if c = 'B' then 'b' else if c = 'C' then 'c'
  else if c = 'D' then 'd' else if c = 'E' then 'e' else if c = 'F' then 'f'
  else if c = 'G' then 'g' else if c = 'H' then 'h' else if c = 'I' then 'i'
  else if c = 'J' then 'j' else if c = 'K' then 'k' else if c = 'L' then 'l'
  else if c = 'M' then 'm' else if c = 'N' then 'n' else if c = 'O' then 'o'
  else if c = 'P' then 'p' else if c = 'Q' then 'q' else if c = 'R' then 'r'
  else if c = 'S' then 's' else if c = 'T' then 't' else if c = 'U' then 'u'
  else if c = 'V' then 'v' else if c = 'W' then 'w' else if c = 'X' then 'x'
  else if c = 'Y' then 'y' else if c = 'Z' then 'z' else c

/-- Greedy run of ASCII digits (`\d+`): the maximal digit prefix and the rest. -/
def digitRun : List Char → List Char × List Char
  | [] => ([], [])
  | c :: cs =>
    if c.isDigit then
      let p := digitRun cs
      (c :: p.1, p.2)
    else ([], c :: cs)

/-- Decimal value of a digit run. -/
def digitsToNat (l : List Char) : Nat :=
  l.foldl (fun n c => 10 * n + (c.toNat - 48)) 0

/-- Value of a numeric token `intPart sep? fracPart` after
`parseFloat(tok.replace(/,/g,""))`: a `','` separator is simply dropped
(grouping), a `'.'` separator makes `fracPart` a decimal fraction. -/
def tokVal (d1 : List Char) (sep : Option Char) (d2 : List Char) : ℚ :=
  if sep = some ',' then (digitsToNat (d1 ++ d2) : ℚ)
  else if sep = some '.' then (digitsToNat d1 : ℚ) + mkRat (digitsToNat d2) (10 ^ d2.length)
  else (digitsToNat d1 : ℚ)

/-- One token of `/\d+(?:[.,]\d+)?/g` taken at a position whose first
character is a digit: the token's value and the remaining characters
(a separator with no digit after it is not part of the token). -/
def splitTok (l : List Char) : ℚ × List Char :=
  let p := digitRun l
  match p.2 with
  | s :: r2 =>
    if (s = '.' || s = ',') && (match r2 with | d :: _ => d.isDigit | [] => false) then
      let q := digitRun r2
      (tokVal p.1 (some s) q.1, q.2)
    else (tokVal p.1 none [], s :: r2)
  | [] => (tokVal p.1 none [], [])

/-- All tokens of `/\d+(?:[.,]\d+)?/g` over a character list, scanning left
to right.  `fuel` only bounds the number of scanning steps; each step
consumes at least one character, so `numbersInText` passes the length of
the list, which always suffices. -/
def numTokensF : Nat → List Char → List ℚ
  | 0, _ => []
  | _, [] => []
  | fuel + 1, c :: cs =>
    if c.isDigit then
      let p := splitTok (c :: cs)
      p.1 :: numTokensF fuel p.2
    else numTokensF fuel cs

/-- Characters surviving `replace(/[^0-9.,\n\r ]/g, "")`. -/
def keepNumChar (c : Char) : Bool :=
  c.isDigit || c = '.' || c = ',' || c = '\n' || c = '\r' || c = ' '

/-- `numbersInText` from App.jsx: normalize, strip all characters other than
digits, `.`, `,`, newlines and spaces, then collect every
`/\d+(?:[.,]\d+)?/g` token as a number (grouping commas removed). -/
def numbersInText (text : String) : List ℚ :=
  let t := (normalizeDigits text).data.filter keepNumChar
  numTokensF t.length t

/-- Literal matcher: if `kw` is a prefix of `l`, return the rest of `l`. -/
def dropLit : List Char → List Char → Option (List Char)
  | [], l => some l
  | _ :: _, [] => none
  | k :: ks, c :: cs => if c = k then dropLit ks cs else none

/-- JS `\s` (whitespace). -/
def wsChar (c : Char) : Bool :=
  c = ' ' || c = '\t' || c = '\n' || c = '\r' || c = '\x0b' || c = '\x0c'

/-- The alternative `unit\s*price` of the price keyword regex: `unit`, then a
greedy whitespace run, then `price` (backtracking on `\s*` cannot succeed
where the greedy run fails, since no whitespace character starts `price`). -/
def dropUnitPrice (l : List Char) : Option (List Char) :=
  match dropLit "unit".data l with
  | some r => dropLit "price".data (r.dropWhile wsChar)
  | none => none

/-- `\d+[.,]?\d*` at a digit-start position, then
`parseFloat(m[2].replace(/,/g,""))`: `[.,]?` may consume a trailing
separator even with no digits after it, which does not change the value. -/
def kwNumToken (l : List Char) : ℚ :=
  let p := digitRun l
  match p.2 with
  | s :: r2 =>
    if s = '.' || s = ',' then tokVal p.1 (some s) (digitRun r2).1
    else tokVal p.1 none []
  | [] => tokVal p.1 none []

/-- `\D{0,10}(\d+[.,]?\d*)`: greedily skip up to 10 non-digit characters; the
group must then start at a digit (shrinking the greedy window cannot help,
because every skipped character is a non-digit). -/
def numAfterGap : Nat → List Char → Option ℚ
  | _, [] => none
  | window, c :: cs =>
    if c.isDigit then some (kwNumToken (c :: cs))
    else
      match window with
      | 0 => none
      | w + 1 => numAfterGap w cs

/-- Try each keyword alternative, in the regex's alternation order, at the
current position; an alternative succeeds if the keyword matches here and a
number follows within the 10-character window. -/
def tryAltsAt (alts : List (List Char → Option (List Char))) (l : List Char) : Option ℚ :=
  match alts with
  | [] => none
  | a :: rest =>
    match a l with
    | some r =>
      match numAfterGap 10 r with
      | some v => some v
      | none => tryAltsAt rest l
    | none => tryAltsAt rest l

/-- Leftmost match of `(alt₁|alt₂|…)\D{0,10}(\d+[.,]?\d*)`: positions are
scanned left to right, alternatives in order at each position. -/
def findKw (alts : List (List Char → Option (List Char))) : List Char → Option ℚ
  | [] => none
  | c :: cs =>
    match tryAltsAt alts (c :: cs) with
    | some v => some v
    | none => findKw alts cs

/-- The alternation of `/(total|amount|الإجمالي|الإجمالى|المجموع|المبلغ)…/`. -/
def amountAlts : List (List Char → Option (List Char)) :=
  [dropLit "total".data, dropLit "amount".data, dropLit "الإجمالي".data,
   dropLit "الإجمالى".data, dropLit "المجموع".data, dropLit "المبلغ".data]

/-- The alternation of `/(unit\s*price|price|السعر|سعر الوحدة)…/`. -/
def priceAlts : List (List Char → Option (List Char)) :=
  [dropUnitPrice, dropLit "price".data, dropLit "السعر".data,
   dropLit "سعر الوحدة".data]

/-- `Math.max(...nums)` over a nonempty list, seeded with its head. -/
def maxOf (a : ℚ) (l : List ℚ) : ℚ := l.foldl max a

/-- `nums.sort((a,b)=>a-b)[0]` is the minimum of the (nonempty) list. -/
def minOf (a : ℚ) (l : List ℚ) : ℚ := l.foldl min a

/-- The text the keyword regexes run on:
`normalizeDigits(text).toLowerCase()`. -/
def lowNormText (text : String) : List Char :=
  (normalizeDigits text).data.map lowerChar

/-- `pickLikelyAmount` from App.jsx.  Note that the source returns the
*number* `0` (not a distinguished absent value) when there is no keyword
match and no numeric token. -/
def pickLikelyAmount (text : String) : ℚ :=
  match findKw amountAlts (lowNormText text) with
  | some v => v
  | none =>
    match numbersInText text with
    | [] => 0
    | n :: rest => maxOf n rest

/-- `pickLikelyPrice` from App.jsx (minimum fallback, `0` when empty). -/
def pickLikelyPrice (text : String) : ℚ :=
  match findKw priceAlts (lowNormText text) with
  | some v => v
  | none =>
    match numbersInText text with
    | [] => 0
    | n :: rest => minOf n rest

/-! ### Lemmas about the token machinery -/

lemma lowerChar_isDigit (c : Char) : (lowerChar c).isDigit = c.isDigit := by
  by_cases hA : c = 'A'; · subst hA; decide
  by_cases hB : c = 'B'; · subst hB; decide
  by_cases hC : c = 'C'; · subst hC; decide
  by_cases hD : c = 'D'; · subst hD; decide
  by_cases hE : c = 'E'; · subst hE; decide
  by_cases hF : c = 'F'; · subst hF; decide
  by_cases hG : c = 'G'; · subst hG; decide
  by_cases hH : c = 'H'; · subst hH; decide
  by_cases hI : c = 'I'; · subst hI; decide
  by_cases hJ : c = 'J'; · subst hJ; decide
  by_cases hK : c = 'K'; · subst hK; decide
  by_cases hL : c = 'L'; · subst hL; decide
  by_cases hM : c = 'M'; · subst hM; decide
  by_cases hN : c = 'N'; · subst hN; decide
  by_cases hO : c = 'O'; · subst hO; decide
  by_cases hP : c = 'P'; · subst hP; decide
  by_cases hQ : c = 'Q'; · subst hQ; decide
  by_cases hR : c = 'R'; · subst hR; decide
  by_cases hS : c = 'S'; · subst hS; decide
  by_cases hT : c = 'T'; · subst hT; decide
  by_cases hU : c = 'U'; · subst hU; decide
  by_cases hV : c = 'V'; · subst hV; decide
  by_cases hW : c = 'W'; · subst hW; decide
  by_cases hX : c = 'X'; · subst hX; decide
  by_cases hY : c = 'Y'; · subst hY; decide
  by_cases hZ : c = 'Z'; · subst hZ; decide
  have : lowerChar c = c := by
    unfold lowerChar
    simp [hA, hB, hC, hD, hE, hF, hG, hH, hI, hJ, hK, hL, hM,
      hN, hO, hP, hQ, hR, hS, hT, hU, hV, hW, hX, hY, hZ]
  rw [this]

lemma numTokensF_of_no_digit :
    ∀ (fuel : Nat) (l : List Char), (∀ c ∈ l, c.isDigit = false) →
      numTokensF fuel l = [] := by
  intro fuel
  induction fuel with
  | zero => intro l _; cases l <;> rfl
  | succ n ih =>
    intro l h
    cases l with
    | nil => rfl
    | cons c cs =>
      have hc : c.isDigit = false := h c (List.mem_cons_self c cs)
      simp only [numTokensF, hc]
      exact ih cs fun x hx => h x (List.mem_cons_of_mem c hx)

lemma dropLit_subset :
    ∀ (k l r : List Char), dropLit k l = some r → ∀ c ∈ r, c ∈ l := by
  intro k
  induction k with
  | nil =>
    intro l r h
    simp only [dropLit, Option.some.injEq] at h
    subst h; exact fun c hc => hc
  | cons k ks ih =>
    intro l r h
    cases l with
    | nil => simp [dropLit] at h
    | cons c cs =>
      simp only [dropLit] at h
      split at h
      · exact fun x hx => List.mem_cons_of_mem c (ih cs r h x hx)
      · cases h

/-- An alternative matcher only ever returns characters of its input. -/
def altSubset (a : List Char → Option (List Char)) : Prop :=
  ∀ l r, a l = some r → ∀ c ∈ r, c ∈ l

lemma dropUnitPrice_subset : altSubset dropUnitPrice := by
  intro l r h c hc
  unfold dropUnitPrice at h
  cases hu : dropLit "unit".data l with
  | none => rw [hu] at h; cases h
  | some r1 =>
    rw [hu] at h
    have h1 : c ∈ r1.dropWhile wsChar :=
      dropLit_subset _ _ _ h c hc
    have h2 : c ∈ r1 := (List.dropWhile_sublist wsChar (l := r1)).subset h1
    exact dropLit_subset _ _ _ hu c h2

lemma numAfterGap_of_no_digit :
    ∀ (l : List Char) (w : Nat), (∀ c ∈ l, c.isDigit = false) →
      numAfterGap w l = none := by
  intro l
  induction l with
  | nil => intro w _; cases w <;> rfl
  | cons c cs ih =>
    intro w h
    have hc : c.isDigit = false := h c (List.mem_cons_self c cs)
    rw [numAfterGap.eq_def]
    simp only [hc]
    cases w with
    | zero => simp
    | succ w => exact ih w fun x hx => h x (List.mem_cons_of_mem c hx)

lemma tryAltsAt_of_no_digit (alts : List (List Char → Option (List Char)))
    (hs : ∀ a ∈ alts, altSubset a) (l : List Char)
    (h : ∀ c ∈ l, c.isDigit = false) : tryAltsAt alts l = none := by
  induction alts with
  | nil => rfl
  | cons a rest ih =>
    cases ha : a l with
    | none =>
      simp only [tryAltsAt, ha]
      exact ih fun x hx => hs x (List.mem_cons_of_mem a hx)
    | some r =>
      have hr : ∀ c ∈ r, c.isDigit = false :=
        fun c hc => h c (hs a (List.mem_cons_self a rest) l r ha c hc)
      simp only [tryAltsAt, ha, numAfterGap_of_no_digit r 10 hr]
      exact ih fun x hx => hs x (List.mem_cons_of_mem a hx)

lemma findKw_of_no_digit (alts : List (List Char → Option (List Char)))
    (hs : ∀ a ∈ alts, altSubset a) :
    ∀ (l : List Char), (∀ c ∈ l, c.isDigit = false) → findKw alts l = none := by
  intro l
  induction l with
  | nil => intro _; rfl
  | cons c cs ih =>
    intro h
    simp only [findKw]
    rw [tryAltsAt_of_no_digit alts hs _ h]
    exact ih fun x hx => h x (List.mem_cons_of_mem c hx)

lemma amountAlts_subset : ∀ a ∈ amountAlts, altSubset a := by
  intro a ha
  simp only [amountAlts, List.mem_cons, List.not_mem_nil, or_false] at ha
  rcases ha with rfl | rfl | rfl | rfl | rfl | rfl <;>
    exact fun l r h => dropLit_subset _ l r h

lemma priceAlts_subset : ∀ a ∈ priceAlts, altSubset a := by
  intro a ha
  simp only [priceAlts, List.mem_cons, List.not_mem_nil, or_false] at ha
  rcases ha with rfl | rfl | rfl | rfl
  · exact dropUnitPrice_subset
  · exact fun l r h => dropLit_subset _ l r h
  · exact fun l r h => dropLit_subset _ l r h
  · exact fun l r h => dropLit_subset _ l r h

lemma le_maxOf (l : List ℚ) : ∀ a, a ≤ maxOf a l := by
  induction l with
  | nil => intro a; exact le_refl a
  | cons x xs ih => intro a; exact le_trans (le_max_left a x) (ih (max a x))

lemma mem_le_maxOf (l : List ℚ) : ∀ a n, n ∈ l → n ≤ maxOf a l := by
  induction l with
  | nil => intro a n hn; cases hn
  | cons x xs ih =>
    intro a n hn
    rcases List.mem_cons.mp hn with rfl | hn
    · exact le_trans (le_max_right a n) (le_maxOf xs (max a n))
    · exact ih (max a x) n hn

lemma maxOf_mem (l : List ℚ) : ∀ a, maxOf a l = a ∨ maxOf a l ∈ l := by
  induction l with
  | nil => intro a; exact Or.inl rfl
  | cons x xs ih =>
    intro a
    have hstep : maxOf a (x :: xs) = maxOf (max a x) xs := rfl
    rcases ih (max a x) with h | h
    · rcases max_choice a x with hax | hax
      · exact Or.inl (by rw [hstep, h, hax])
      · exact Or.inr (by rw [hstep, h, hax]; exact List.mem_cons_self x xs)
    · exact Or.inr (by rw [hstep]; exact List.mem_cons_of_mem x h)

/-- C1 (counterexample): the extractors return the plain number `0` both for
a text whose only numeric token is `0` and for a text with no numeric token
at all, so the "absent" result is not a first-class state distinct from the
number zero. -/
theorem pickLikely_absent_equals_zero :
    pickLikelyAmount "0" = pickLikelyAmount "xyz"
    ∧ pickLikelyPrice "0" = pickLikelyPrice "xyz"
    ∧ numbersInText "0" = [0]
    ∧ numbersInText "xyz" = []
    ∧ pickLikelyAmount "0" = 0 := by decide

/-- C1 (amended): when the normalized text contains no digit (hence no
numeric token), `pickLikelyAmount` and `pickLikelyPrice` return the number
`0`; absence is encoded as `0`, not as a distinguished value. -/
theorem pickLikely_zero_of_no_digit (t : String)
    (h : ∀ c ∈ (normalizeDigits t).data, c.isDigit = false) :
    pickLikelyAmount t = 0 ∧ pickLikelyPrice t = 0 ∧ numbersInText t = [] := by
  have hlow : ∀ c ∈ lowNormText t, c.isDigit = false := by
    intro c hc
    rcases List.mem_map.mp hc with ⟨d, hd, rfl⟩
    rw [lowerChar_isDigit]
    exact h d hd
  have hkwA : findKw amountAlts (lowNormText t) = none :=
    findKw_of_no_digit _ amountAlts_subset _ hlow
  have hkwP : findKw priceAlts (lowNormText t) = none :=
    findKw_of_no_digit _ priceAlts_subset _ hlow
  have hfil : ∀ c ∈ (normalizeDigits t).data.filter keepNumChar, c.isDigit = false :=
    fun c hc => h c (List.mem_of_mem_filter hc)
  have hnum : numbersInText t = [] := numTokensF_of_no_digit _ _ hfil
  refine ⟨?_, ?_, hnum⟩
  · unfold pickLikelyAmount
    rw [hkwA, hnum]
  · unfold pickLikelyPrice
    rw [hkwP, hnum]

theorem pickLikely_zero_of_no_digit_witness :
    pickLikelyAmount "abc" = 0 ∧ pickLikelyPrice "abc" = 0 ∧ numbersInText "abc" = [] :=
  pickLikely_zero_of_no_digit "abc" (by decide)

/-- C6: the keyword-anchored amount takes precedence (the spec's own example
text yields `150`, not the larger `999`); when a keyword match exists its
number is returned; only with no keyword match is the fallback used, and the
fallback is the maximum numeric token of the text. -/
theorem amount_keyword_precedence :
    pickLikelyAmount "Total: 150 other numbers 999 20" = 150
    ∧ (∀ t v, findKw amountAlts (lowNormText t) = some v → pickLikelyAmount t = v)
    ∧ (∀ t, findKw amountAlts (lowNormText t) = none →
        (∀ n ∈ numbersInText t, n ≤ pickLikelyAmount t)
        ∧ (numbersInText t ≠ [] → pickLikelyAmount t ∈ numbersInText t)) := by
  refine ⟨by decide, ?_, ?_⟩
  · intro t v hv
    unfold pickLikelyAmount
    rw [hv]
  · intro t ht
    unfold pickLikelyAmount
    rw [ht]
    cases hn : numbersInText t with
    | nil => simp
    | cons x xs =>
      refine ⟨?_, fun _ => ?_⟩
      · intro n hmem
        show n ≤ maxOf x xs
        rcases List.mem_cons.mp hmem with rfl | hmem
        · exact le_maxOf xs n
        · exact mem_le_maxOf xs x n hmem
      · show maxOf x xs ∈ x :: xs
        rcases maxOf_mem xs x with h | h
        · rw [h]; exact List.mem_cons_self x xs
        · exact List.mem_cons_of_mem x h

theorem amount_keyword_precedence_witness :
    pickLikelyAmount "amount 33" = 33
    ∧ ∀ n ∈ numbersInText "12 450 7", n ≤ pickLikelyAmount "12 450 7" :=
  ⟨amount_keyword_precedence.2.1 "amount 33" 33 (by decide),
   (amount_keyword_precedence.2.2 "12 450 7" (by decide)).1⟩

/-! ## DateExtractor: `parseDateFromText` -/

/-- `[\/\-]`: one separator character. -/
def sepChar : List Char → Option (List Char)
  | c :: cs => if c = '/' ∨ c = '-' then some cs else none
  | [] => none

/-- Exactly `\d{4}` (no lookahead: a fifth digit is simply left over). -/
def fourDigits : List Char → Option (Nat × List Char)
  | a :: b :: c :: d :: rest =>
    if a.isDigit && b.isDigit && c.isDigit && d.isDigit then
      some (digitsToNat [a, b, c, d], rest)
    else none
  | _ => none

/-- Exactly `\d{3}`. -/
def threeDigits : List Char → Option (Nat × List Char)
  | a :: b :: c :: rest =>
    if a.isDigit && b.isDigit && c.isDigit then some (digitsToNat [a, b, c], rest)
    else none
  | _ => none

/-- Exactly `\d{2}`. -/
def twoDigits : List Char → Option (Nat × List Char)
  | a :: b :: rest =>
    if a.isDigit && b.isDigit then some (digitsToNat [a, b], rest) else none
  | _ => none

/-- Exactly `\d{1}`. -/
def oneDigit : List Char → Option (Nat × List Char)
  | a :: rest => if a.isDigit then some (digitsToNat [a], rest) else none
  | _ => none

/-- `\d{1,2}` at the end of a pattern: greedy, nothing to backtrack for. -/
def oneOrTwoDigits (l : List Char) : Option (Nat × List Char) :=
  twoDigits l <|> oneDigit l

/-- `\d{2,4}` at the end of a pattern: greedy. -/
def twoToFourDigits (l : List Char) : Option (Nat × List Char) :=
  fourDigits l <|> threeDigits l <|> twoDigits l

/-- The `(\d{1,2})[\/\-](\d{1,2})` tail of pattern 1: the greedy middle group
backtracks from two digits to one if the rest cannot match. -/
def tail12 (r : List Char) : Option (Nat × Nat) :=
  (do
    let (mo, ra) ← twoDigits r
    let rb ← sepChar ra
    let (da, _) ← oneOrTwoDigits rb
    pure (mo, da))
  <|>
  (do
    let (mo, ra) ← oneDigit r
    let rb ← sepChar ra
    let (da, _) ← oneOrTwoDigits rb
    pure (mo, da))

/-- `/(\d{4})[\/\-](\d{1,2})[\/\-](\d{1,2})/` anchored at this position. -/
def p1At (l : List Char) : Option (Nat × Nat × Nat) := do
  let (y, r1) ← fourDigits l
  let r2 ← sepChar r1
  let (mo, da) ← tail12 r2
  pure (y, mo, da)

/-- The `(\d{1,2})[\/\-](\d{2,4})` tail of pattern 2. -/
def p2Tail (r : List Char) : Option (Nat × Nat) :=
  (do
    let (mo, ra) ← twoDigits r
    let rb ← sepChar ra
    let (y, _) ← twoToFourDigits rb
    pure (mo, y))
  <|>
  (do
    let (mo, ra) ← oneDigit r
    let rb ← sepChar ra
    let (y, _) ← twoToFourDigits rb
    pure (mo, y))

/-- `/(\d{1,2})[\/\-](\d{1,2})[\/\-](\d{2,4})/` anchored at this position
(each greedy group is tried with its full continuation before shrinking). -/
def p2At (l : List Char) : Option (Nat × Nat × Nat) :=
  (do
    let (da, ra) ← twoDigits l
    let rb ← sepChar ra
    let (mo, y) ← p2Tail rb
    pure (da, mo, y))
  <|>
  (do
    let (da, ra) ← oneDigit l
    let rb ← sepChar ra
    let (mo, y) ← p2Tail rb
    pure (da, mo, y))

/-- Leftmost match of pattern 1 (`t.match(p1)`). -/
def scanP1 : List Char → Option (Nat × Nat × Nat)
  | [] => none
  | c :: cs => p1At (c :: cs) <|> scanP1 cs

/-- Leftmost match of pattern 2 (`t.match(p2)`). -/
def scanP2 : List Char → Option (Nat × Nat × Nat)
  | [] => none
  | c :: cs => p2At (c :: cs) <|> scanP2 cs

/-- Day number of a civil date, 1970-01-01 = day 0 (the standard
`days_from_civil` algorithm).  Day numbers and civil triples are in
bijection, so day-number equality models the source's comparison of
`yyyymmdd` strings. -/
def daysFromCivil (y m d : Int) : Int :=
  let y2 := if m ≤ 2 then y - 1 else y
  let era := y2.fdiv 400
  let yoe := y2 - era * 400
  let mp := (m + 9).emod 12
  let doy := (153 * mp + 2).fdiv 5 + d - 1
  let doe := yoe * 365 + yoe.fdiv 4 - yoe.fdiv 100 + doy
  era * 146097 + doe - 719468

/-- `new Date(y, mo - 1, da)` at day precision: an argument year 0–99 means
1900+y, and out-of-range month/day roll over arithmetically (JS Date
semantics).  For every value the date patterns can produce the resulting
time value is far inside the representable range, so `isNaN(dt.getTime())`
is false and the source's guard never rejects a match. -/
def jsDateDays (y mo da : Nat) : Int :=
  let yy : Int := if y ≤ 99 then 1900 + (y : Int) else (y : Int)
  let tm : Int := yy * 12 + ((mo : Int) - 1)
  daysFromCivil (tm.fdiv 12) (tm.emod 12 + 1) 1 + ((da : Int) - 1)

/-- `parseDateFromText` from App.jsx: normalize, try pattern 1 then pattern 2
(first textual match each), a two-digit year of pattern 2 meaning 2000+YY. -/
def parseDateFromText (text : String) : Option Int :=
  match scanP1 (normalizeDigits text).data with
  | some (y, mo, da) => some (jsDateDays y mo da)
  | none =>
    match scanP2 (normalizeDigits text).data with
    | some (da, mo, y) => some (jsDateDays (if y < 100 then y + 2000 else y) mo da)
    | none => none

example : parseDateFromText "2024-05-01" = some (daysFromCivil 2024 5 1) := by decide
example : parseDateFromText "on 01-05-24 x" = some (daysFromCivil 2024 5 1) := by decide
example : parseDateFromText "no dates here" = none := by decide
example : scanP1 "2024-13-40".data = some (2024, 13, 40) := by decide

/-- C2 (counterexample): the first date-shaped match of `"2024-13-40"` has
month 13 and day 40, yet `parseDateFromText` does not return an absent
date. -/
theorem parseDate_invalid_components_not_absent :
    parseDateFromText "2024-13-40" ≠ none := by decide

/-- C2 (amended): a date-shaped match with out-of-range components is
accepted with JS `Date` rollover — `"2024-13-40"` yields 2025-02-09 — and
(the function being total) nothing is thrown; the result is absent exactly
when neither date pattern matches the normalized text, with no
calendar-validity filtering. -/
theorem parseDate_rollover :
    parseDateFromText "2024-13-40" = some (daysFromCivil 2025 2 9)
    ∧ (∀ t, parseDateFromText t = none ↔
        scanP1 (normalizeDigits t).data = none
        ∧ scanP2 (normalizeDigits t).data = none) := by
  refine ⟨by decide, ?_⟩
  intro t
  unfold parseDateFromText
  cases h1 : scanP1 (normalizeDigits t).data with
  | some v =>
    rcases v with ⟨y, mo, da⟩
    simp
  | none =>
    cases h2 : scanP2 (normalizeDigits t).data with
    | some v =>
      rcases v with ⟨da, mo, y⟩
      simp [h2]
    | none => simp [h2]

/-! ## Matcher: `similarText`, `closeNum`, `compareWithData` -/

/-- `b` occurs as a contiguous substring of `a` (JS `a.includes(b)`). -/
def startsWithSeq : List Char → List Char → Bool
  | [], _ => true
  | _ :: _, [] => false
  | n :: ns, c :: cs => n = c && startsWithSeq ns cs

/-- JS `hay.includes(needle)`. -/
def includesSeq (needle : List Char) : List Char → Bool
  | [] => startsWithSeq needle []
  | c :: cs => startsWithSeq needle (c :: cs) || includesSeq needle cs

/-- `similarText` from App.jsx: falsy (empty) strings never match; otherwise
case-insensitive substring containment in either direction. -/
def similarText (a b : String) : Bool :=
  if a = "" ∨ b = "" then false
  else
    includesSeq (b.data.map lowerChar) (a.data.map lowerChar)
    || includesSeq (a.data.map lowerChar) (b.data.map lowerChar)

/-- JS `Math.abs`. -/
def mAbs (x : ℚ) : ℚ := if x < 0 then -x else x

/-- JS `Math.max` on two numbers. -/
def mMax (a b : ℚ) : ℚ := if a ≤ b then b else a

lemma mAbs_eq_abs (x : ℚ) : mAbs x = |x| := by
  unfold mAbs
  by_cases h : x < 0
  · rw [if_pos h, abs_of_neg h]
  · rw [if_neg h, abs_of_nonneg (le_of_not_lt h)]

lemma mMax_eq_max (a b : ℚ) : mMax a b = max a b := (max_def a b).symm

/-- `closeNum` from App.jsx: falsy (zero) operands never match; otherwise
`|a − b| ≤ max(1, tol · max(a, b))` with `tol = 0.05 = 5/100`. -/
def closeNum (a b : ℚ) (tol : ℚ := mkRat 5 100) : Bool :=
  if a = 0 ∨ b = 0 then false
  else decide (mAbs (a - b) ≤ mMax 1 (tol * mMax a b))

lemma tol_eq : (mkRat 5 100 : ℚ) = 5 / 100 := by
  rw [Rat.mkRat_eq_div]
  norm_num

/-- A normalized ledger row (the `normalized` array of App.jsx); its `date`
is an optional day number, numeric fields are numbers, `product` a string. -/
structure Row where
  date : Option Int
  product : String
  qty : ℚ
  price : ℚ
  revenue : ℚ
  region : String
  deriving DecidableEq

/-- The candidate record produced by `parseInvoiceText`: `date` is
`Date | null`, the numeric fields are plain numbers (`0` when nothing was
extracted), `product` a string (`""` when nothing was found). -/
structure Inv where
  date : Option Int
  amount : ℚ
  price : ℚ
  product : String
  deriving DecidableEq

/-- Result shape `{ match, row }` of `compareWithData`. -/
structure CmpResult where
  matched : Bool
  row : Option Row
  deriving DecidableEq

/-- The per-entry conjunction of `compareWithData`'s loop body: JS
truthiness of `inv.price` / `inv.amount` is `≠ 0`, of `inv.date` / `r.date`
is `≠ null`; equal `yyyymmdd` strings are equal day numbers. -/
def rowOk (inv : Inv) (r : Row) : Bool :=
  similarText r.product inv.product
  && (if inv.price = 0 then true else closeNum r.price inv.price)
  && (if inv.amount = 0 then true else closeNum r.revenue inv.amount)
  && (match inv.date, r.date with
      | some d1, some d2 => decide (d2 = d1)
      | _, _ => true)

/-- `compareWithData` from App.jsx: first entry of the ledger satisfying all
four predicates wins; `{match:false,row:null}` when none does (the empty
ledger is caught by the `!normalized.length` guard, with the same result). -/
def compareWithData (inv : Inv) : List Row → CmpResult
  | [] => ⟨false, none⟩
  | r :: rs => if rowOk inv r then ⟨true, some r⟩ else compareWithData inv rs

/-- C3: `compareWithData` returns the first ledger entry, in ledger order,
satisfying all four per-field predicates, and no-match exactly when no entry
satisfies them; with several qualifying entries the earliest wins. -/
theorem compareWithData_first_match (inv : Inv) (L : List Row) :
    ((∀ r ∈ L, rowOk inv r = false) → compareWithData inv L = ⟨false, none⟩)
    ∧ (∀ i (hi : i < L.length), rowOk inv (L.get ⟨i, hi⟩) = true →
        (∀ j (hj : j < i), rowOk inv (L.get ⟨j, hj.trans hi⟩) = false) →
        compareWithData inv L = ⟨true, some (L.get ⟨i, hi⟩)⟩) := by
  induction L with
  | nil =>
    exact ⟨fun _ => rfl, fun i hi => absurd hi (Nat.not_lt_zero i)⟩
  | cons r rs ih =>
    constructor
    · intro h
      have hr : rowOk inv r = false := h r (List.mem_cons_self r rs)
      simp only [compareWithData, hr, Bool.false_eq_true, if_false]
      exact ih.1 fun x hx => h x (List.mem_cons_of_mem r hx)
    · intro i hi hok hfirst
      cases i with
      | zero =>
        simp only [List.get] at hok
        simp only [compareWithData, hok, if_true]
        rfl
      | succ n =>
        have hr : rowOk inv r = false := hfirst 0 (Nat.succ_pos n)
        simp only [List.get] at hr hok ⊢
        simp only [compareWithData, hr, Bool.false_eq_true, if_false]
        exact ih.2 n (Nat.succ_lt_succ_iff.mp hi) hok
          fun j hj => hfirst (j + 1) (Nat.succ_lt_succ hj)

theorem compareWithData_first_match_witness :
    compareWithData ⟨none, 0, 0, "pen"⟩
        [⟨none, "notebook", 1, 2, 2, "e"⟩,
         ⟨none, "pen blue", 1, 3, 3, "e"⟩,
         ⟨none, "pen red", 1, 4, 4, "e"⟩]
      = ⟨true, some ⟨none, "pen blue", 1, 3, 3, "e"⟩⟩ :=
  (compareWithData_first_match ⟨none, 0, 0, "pen"⟩
      [⟨none, "notebook", 1, 2, 2, "e"⟩,
       ⟨none, "pen blue", 1, 3, 3, "e"⟩,
       ⟨none, "pen red", 1, 4, 4, "e"⟩]).2
    1 (by decide) (by decide) (by decide)

lemma closeNum_eq_formula (a b : ℚ) (ha : a ≠ 0) (hb : b ≠ 0) :
    closeNum a b = true ↔ |a - b| ≤ max 1 (5 / 100 * max a b) := by
  unfold closeNum
  rw [if_neg (by tauto), mAbs_eq_abs, mMax_eq_max, mMax_eq_max, tol_eq]
  exact decide_eq_true_iff

lemma closeNum_boundary_pass : closeNum 100 105 = true := by
  rw [closeNum_eq_formula 100 105 (by norm_num) (by norm_num)]
  rw [max_eq_right (by norm_num : (100 : ℚ) ≤ 105)]
  refine le_trans ?_ (le_max_right 1 (5 / 100 * 105))
  rw [abs_le]
  constructor <;> norm_num

lemma closeNum_boundary_fail : closeNum 100 106 = false := by
  cases hb : closeNum 100 106 with
  | false => rfl
  | true =>
    exfalso
    have h := (closeNum_eq_formula 100 106 (by norm_num) (by norm_num)).mp hb
    rw [max_eq_right (by norm_num : (100 : ℚ) ≤ 106)] at h
    have hm : max (1 : ℚ) (5 / 100 * 106) = 53 / 10 := by
      rw [max_eq_right (by norm_num)]
      norm_num
    rw [hm, abs_le] at h
    have h1 := h.1
    norm_num at h1

/-- C4 (counterexample): ledger price `0`, candidate price `1`: the claimed
tolerance formula holds (`|0 − 1| = 1 ≤ max(1, 0.05·1)`), the product and the
vacuous predicates all pass, yet the matcher rejects the entry — `closeNum`'s
falsy guard makes a zero ledger price fail unconditionally. -/
theorem price_tolerance_zero_guard :
    compareWithData ⟨none, 0, 1, "widget"⟩ [⟨none, "widget", 1, 0, 50, "e"⟩]
        = ⟨false, none⟩
    ∧ |(0 : ℚ) - 1| ≤ max 1 (5 / 100 * max (0 : ℚ) 1)
    ∧ similarText "widget" "widget" = true := by
  refine ⟨by decide, ?_, by decide⟩
  refine le_trans ?_ (le_max_left 1 (5 / 100 * max (0 : ℚ) 1))
  rw [abs_le]
  constructor <;> norm_num

/-- C4 (amended): for nonzero operands `closeNum` is exactly the inclusive
tolerance formula `|a − b| ≤ max(1, 0.05·max(a,b))`; the boundary pair
100/105 passes and 100/106 fails; and a successful row predicate implies the
formula for ledger price vs candidate price and for ledger revenue vs
candidate amount whenever both sides are nonzero (a zero on either side
instead fails the predicate outright). -/
theorem closeNum_tolerance :
    (∀ a b : ℚ, a ≠ 0 → b ≠ 0 →
      (closeNum a b = true ↔ |a - b| ≤ max 1 (5 / 100 * max a b)))
    ∧ closeNum 100 105 = true
    ∧ closeNum 100 106 = false
    ∧ (∀ inv r, rowOk inv r = true → inv.price ≠ 0 → r.price ≠ 0 →
        |r.price - inv.price| ≤ max 1 (5 / 100 * max r.price inv.price))
    ∧ (∀ inv r, rowOk inv r = true → inv.amount ≠ 0 → r.revenue ≠ 0 →
        |r.revenue - inv.amount| ≤ max 1 (5 / 100 * max r.revenue inv.amount)) := by
  refine ⟨closeNum_eq_formula, closeNum_boundary_pass, closeNum_boundary_fail, ?_, ?_⟩
  · intro inv r hok hp hrp
    have h2 : (if inv.price = 0 then true else closeNum r.price inv.price) = true := by
      simp only [rowOk, Bool.and_eq_true] at hok
      exact hok.1.1.2
    rw [if_neg hp] at h2
    exact (closeNum_eq_formula r.price inv.price hrp hp).mp h2
  · intro inv r hok ha hrr
    have h3 : (if inv.amount = 0 then true else closeNum r.revenue inv.amount) = true := by
      simp only [rowOk, Bool.and_eq_true] at hok
      exact hok.1.2
    rw [if_neg ha] at h3
    exact (closeNum_eq_formula r.revenue inv.amount hrr ha).mp h3

theorem closeNum_tolerance_witness :
    closeNum 100 105 = true ↔
      |(100 : ℚ) - 105| ≤ max 1 (5 / 100 * max (100 : ℚ) 105) :=
  closeNum_tolerance.1 100 105 (by norm_num) (by norm_num)

/-! ### C5: product-only candidates -/

lemma compareWithData_matched_iff (inv : Inv) (L : List Row) :
    (compareWithData inv L).matched = true ↔ ∃ r ∈ L, rowOk inv r = true := by
  induction L with
  | nil => simp [compareWithData]
  | cons r rs ih =>
    by_cases h : rowOk inv r = true
    · have hc : compareWithData inv (r :: rs) = ⟨true, some r⟩ := by
        simp [compareWithData, h]
      rw [hc]
      exact ⟨fun _ => ⟨r, List.mem_cons_self r rs, h⟩, fun _ => rfl⟩
    · have hb : rowOk inv r = false := by
        revert h
        cases rowOk inv r <;> simp
      simp only [compareWithData, hb, Bool.false_eq_true, if_false]
      rw [ih]
      constructor
      · rintro ⟨x, hx, hxok⟩
        exact ⟨x, List.mem_cons_of_mem r hx, hxok⟩
      · rintro ⟨x, hx, hxok⟩
        rcases List.mem_cons.mp hx with rfl | hx
        · exact absurd hxok h
        · exact ⟨x, hx, hxok⟩

/-- Modelled from the spec's words (§4.3 Product predicate), for comparison
with the source's `similarText`: case-insensitive "`a` contains `b`". -/
def containsCI (a b : String) : Bool :=
  includesSeq (b.data.map lowerChar) (a.data.map lowerChar)

lemma similarText_eq (a b : String) (hb : b ≠ "") :
    similarText a b = true ↔
      a ≠ "" ∧ (containsCI a b = true ∨ containsCI b a = true) := by
  unfold similarText containsCI
  by_cases ha : a = ""
  · rw [if_pos (Or.inl ha)]
    simp [ha]
  · rw [if_neg (by tauto)]
    simp [ha, Bool.or_eq_true]

lemma rowOk_product_only (inv : Inv) (r : Row) (hp : inv.price = 0)
    (hamt : inv.amount = 0) (hdate : inv.date = none) :
    rowOk inv r = similarText r.product inv.product := by
  unfold rowOk
  rw [hp, hamt, hdate]
  cases r.date <;> simp

/-- C5: a candidate whose product is nonempty and whose price, amount and
date are all absent matches iff some ledger entry has a *nonempty* product
that case-insensitively contains or is contained in the candidate product —
regardless of that entry's price, revenue or date; and a candidate with an
absent (empty) product never matches anything. -/
theorem product_only_candidate_match :
    (∀ (inv : Inv) (L : List Row), inv.price = 0 → inv.amount = 0 →
      inv.date = none → inv.product ≠ "" →
      ((compareWithData inv L).matched = true ↔
        ∃ r ∈ L, r.product ≠ ""
          ∧ (containsCI r.product inv.product = true
             ∨ containsCI inv.product r.product = true)))
    ∧ (∀ (inv : Inv) (L : List Row), inv.product = "" →
        (compareWithData inv L).matched = false) := by
  constructor
  · intro inv L hp hamt hdate hprod
    rw [compareWithData_matched_iff]
    refine exists_congr fun r => and_congr_right fun _ => ?_
    rw [rowOk_product_only inv r hp hamt hdate, similarText_eq _ _ hprod]
  · intro inv L hprod
    have h : ∀ r ∈ L, rowOk inv r = true → False := by
      intro r _ hok
      have hsim : similarText r.product inv.product = true := by
        simp only [rowOk, Bool.and_eq_true] at hok
        exact hok.1.1.1
      rw [hprod] at hsim
      unfold similarText at hsim
      rw [if_pos (Or.inr rfl)] at hsim
      cases hsim
    cases hm : (compareWithData inv L).matched
    · rfl
    · exfalso
      rcases (compareWithData_matched_iff inv L).mp hm with ⟨r, hr, hok⟩
      exact h r hr hok

/-- C5 (counterexample): a ledger entry whose product is the empty string is
never matched, even though the empty string *is* (case-insensitively)
contained in the candidate product, so the claimed containment criterion is
not equivalent to the code for such entries. -/
theorem empty_ledger_product_never_matches :
    compareWithData ⟨none, 0, 0, "x"⟩ [⟨none, "", 1, 1, 1, "e"⟩] = ⟨false, none⟩
    ∧ containsCI "x" "" = true := by decide

theorem product_only_candidate_match_witness :
    (compareWithData ⟨none, 0, 0, "pen"⟩
        [(⟨some 5, "My Pen Set", 2, 999, 999, "e"⟩ : Row)]).matched = true ↔
      ∃ r ∈ [(⟨some 5, "My Pen Set", 2, 999, 999, "e"⟩ : Row)], r.product ≠ ""
        ∧ (containsCI r.product "pen" = true ∨ containsCI "pen" r.product = true) :=
  product_only_candidate_match.1 ⟨none, 0, 0, "pen"⟩
    [⟨some 5, "My Pen Set", 2, 999, 999, "e"⟩] rfl rfl rfl (by decide)

/-! ## ProductExtractor: `pickLikelyProduct` -/

/-- `text.split(/\r?\n/)`: a `\r\n` pair or a lone `\n` ends a line (a lone
`\r` stays inside its line). -/
def splitNL : List Char → List (List Char)
  | [] => [[]]
  | '\r' :: '\n' :: rest => [] :: splitNL rest
  | '\n' :: rest => [] :: splitNL rest
  | c :: rest =>
    match splitNL rest with
    | s :: ss => (c :: s) :: ss
    | [] => [[c]]

/-- JS `trim()` (whitespace at both ends removed). -/
def trimList (l : List Char) : List Char :=
  ((l.dropWhile wsChar).reverse.dropWhile wsChar).reverse

/-- `text.split(/\r?\n/).map(l => l.trim()).filter(Boolean)`. -/
def linesOf (text : String) : List (List Char) :=
  ((splitNL text.data).map trimList).filter (fun l => !l.isEmpty)

/-- `/(المنتج|product|item|اسم المنتج)/.test(lines[i].toLowerCase())`. -/
def productKwTest (l : List Char) : Bool :=
  includesSeq "المنتج".data (l.map lowerChar)
  || includesSeq "product".data (l.map lowerChar)
  || includesSeq "item".data (l.map lowerChar)
  || includesSeq "اسم المنتج".data (l.map lowerChar)

/-- `next.replace(/[:：]/, "")`: no `g` flag, so only the *first* colon
(ASCII or fullwidth), wherever it occurs, is removed. -/
def removeFirstColon : List Char → List Char
  | [] => []
  | c :: cs => if c = ':' ∨ c = '：' then cs else c :: removeFirstColon cs

/-- `/^[0-9.,]+$/.test(l)` (the first-pass numeric check — no dash). -/
def numDotComma (l : List Char) : Bool :=
  !l.isEmpty && l.all fun c => c.isDigit || c = '.' || c = ','

/-- `/^[0-9.,-]+$/.test(l)` (the fallback numeric check — with dash). -/
def numDotCommaDash (l : List Char) : Bool :=
  !l.isEmpty && l.all fun c => c.isDigit || c = '.' || c = ',' || c = '-'

/-- The condition under which the first-pass loop returns at line `i`:
line `i` contains a product keyword, line `i+1` exists (the match arm), and
line `i+1` with its first colon removed and re-trimmed is nonempty and not
numeric-only. -/
def kwHitB (l next : List Char) : Bool :=
  productKwTest l
  && (!(trimList (removeFirstColon next)).isEmpty
      && !numDotComma (trimList (removeFirstColon next)))

/-- The first-pass loop of `pickLikelyProduct` (early `return` on the first
hit; a keyword line whose following line fails the check does not stop the
scan). -/
def prodFirstPass : List (List Char) → Option (List Char)
  | l :: next :: rest =>
    if kwHitB l next then some (trimList (removeFirstColon next))
    else prodFirstPass (next :: rest)
  | _ => none

/-- `nonNum.sort((a,b) => b.length - a.length)[0]` with JS's stable sort:
the earliest line of maximal length (`[]` for the empty list, modelling
`nonNum[0] || ""`). -/
def firstLongest : List (List Char) → List Char
  | [] => []
  | l :: ls =>
    let best := firstLongest ls
    if best.length > l.length then best else l

/-- `lines.filter(l => !/^[0-9.,-]+$/.test(l))`. -/
def nonNumLines (text : String) : List (List Char) :=
  (linesOf text).filter fun l => !numDotCommaDash l

/-- `pickLikelyProduct` from App.jsx. -/
def pickLikelyProduct (text : String) : String :=
  match prodFirstPass (linesOf text) with
  | some nx => String.mk (nx.take 60)
  | none => String.mk ((firstLongest (nonNumLines text)).take 60)

example : pickLikelyProduct "product\nWidget Blue\n123" = "Widget Blue" := by decide
example : pickLikelyProduct "ab\ncdef\n123" = "cdef" := by decide
example : pickLikelyProduct "12,3\n4.5" = "" := by decide
example : pickLikelyProduct "product\nA: B" = "A B" := by decide

/-! ### Lemmas about `pickLikelyProduct` -/

lemma startsWithSeq_subset :
    ∀ (n h : List Char), startsWithSeq n h = true → ∀ c ∈ n, c ∈ h := by
  intro n
  induction n with
  | nil => intro h _ c hc; cases hc
  | cons x xs ih =>
    intro h hs c hc
    cases h with
    | nil => simp [startsWithSeq] at hs
    | cons y ys =>
      simp only [startsWithSeq, Bool.and_eq_true] at hs
      have hxy : x = y := of_decide_eq_true hs.1
      rcases List.mem_cons.mp hc with rfl | hcm
      · rw [hxy]; exact List.mem_cons_self y ys
      · exact List.mem_cons_of_mem y (ih ys hs.2 c hcm)

lemma includesSeq_subset :
    ∀ (h n : List Char), includesSeq n h = true → ∀ c ∈ n, c ∈ h := by
  intro h
  induction h with
  | nil =>
    intro n hi c hc
    cases n with
    | nil => cases hc
    | cons x xs => simp [includesSeq, startsWithSeq] at hi
  | cons y ys ih =>
    intro n hi c hc
    simp only [includesSeq, Bool.or_eq_true] at hi
    rcases hi with hi | hi
    · exact startsWithSeq_subset n (y :: ys) hi c hc
    · exact List.mem_cons_of_mem y (ih n hi c hc)

lemma lowerChar_of_class (c : Char)
    (h : (c.isDigit || c = '.' || c = ',' || c = '-') = true) : lowerChar c = c := by
  by_cases hA : c = 'A'; · rw [hA] at h; exact absurd h (by decide)
  by_cases hB : c = 'B'; · rw [hB] at h; exact absurd h (by decide)
  by_cases hC : c = 'C'; · rw [hC] at h; exact absurd h (by decide)
  by_cases hD : c = 'D'; · rw [hD] at h; exact absurd h (by decide)
  by_cases hE : c = 'E'; · rw [hE] at h; exact absurd h (by decide)
  by_cases hF : c = 'F'; · rw [hF] at h; exact absurd h (by decide)
  by_cases hG : c = 'G'; · rw [hG] at h; exact absurd h (by decide)
  by_cases hH : c = 'H'; · rw [hH] at h; exact absurd h (by decide)
  by_cases hI : c = 'I'; · rw [hI] at h; exact absurd h (by decide)
  by_cases hJ : c = 'J'; · rw [hJ] at h; exact absurd h (by decide)
  by_cases hK : c = 'K'; · rw [hK] at h; exact absurd h (by decide)
  by_cases hL : c = 'L'; · rw [hL] at h; exact absurd h (by decide)
  by_cases hM : c = 'M'; · rw [hM] at h; exact absurd h (by decide)
  by_cases hN : c = 'N'; · rw [hN] at h; exact absurd h (by decide)
  by_cases hO : c = 'O'; · rw [hO] at h; exact absurd h (by decide)
  by_cases hP : c = 'P'; · rw [hP] at h; exact absurd h (by decide)
  by_cases hQ : c = 'Q'; · rw [hQ] at h; exact absurd h (by decide)
  by_cases hR : c = 'R'; · rw [hR] at h; exact absurd h (by decide)
  by_cases hS : c = 'S'; · rw [hS] at h; exact absurd h (by decide)
  by_cases hT : c = 'T'; · rw [hT] at h; exact absurd h (by decide)
  by_cases hU : c = 'U'; · rw [hU] at h; exact absurd h (by decide)
  by_cases hV : c = 'V'; · rw [hV] at h; exact absurd h (by decide)
  by_cases hW : c = 'W'; · rw [hW] at h; exact absurd h (by decide)
  by_cases hX : c = 'X'; · rw [hX] at h; exact absurd h (by decide)
  by_cases hY : c = 'Y'; · rw [hY] at h; exact absurd h (by decide)
  by_cases hZ : c = 'Z'; · rw [hZ] at h; exact absurd h (by decide)
  unfold lowerChar
  simp [hA, hB, hC, hD, hE, hF, hG, hH, hI, hJ, hK, hL, hM,
    hN, hO, hP, hQ, hR, hS, hT, hU, hV, hW, hX, hY, hZ]

lemma productKwTest_false_of_numeric (l : List Char)
    (h : numDotCommaDash l = true) : productKwTest l = false := by
  have hcls : ∀ c ∈ l, (c.isDigit || c = '.' || c = ',' || c = '-') = true := by
    unfold numDotCommaDash at h
    rw [Bool.and_eq_true, List.all_eq_true] at h
    exact h.2
  have hmap : l.map lowerChar = l := by
    have h1 : l.map lowerChar = l.map id :=
      List.map_congr_left fun c hc => lowerChar_of_class c (hcls c hc)
    rw [h1, List.map_id]
  have hkw : ∀ (kw : List Char) (c : Char), c ∈ kw →
      (c.isDigit || c = '.' || c = ',' || c = '-') = false →
      includesSeq kw (l.map lowerChar) = false := by
    intro kw c hc hcf
    cases hik : includesSeq kw (l.map lowerChar) with
    | false => rfl
    | true =>
      exfalso
      rw [hmap] at hik
      have h5 := hcls c (includesSeq_subset l kw hik c hc)
      rw [hcf] at h5
      cases h5
  unfold productKwTest
  rw [hkw "المنتج".data 'ا' (by decide) (by decide),
      hkw "product".data 'p' (by decide) (by decide),
      hkw "item".data 'i' (by decide) (by decide),
      hkw "اسم المنتج".data 'ا' (by decide) (by decide)]
  rfl

lemma prodFirstPass_none_of_numeric :
    ∀ (L : List (List Char)), (∀ l ∈ L, numDotCommaDash l = true) →
      prodFirstPass L = none := by
  intro L
  induction L with
  | nil => intro _; rfl
  | cons l ls ih =>
    intro h
    cases ls with
    | nil => rfl
    | cons next rest =>
      have hkw : productKwTest l = false :=
        productKwTest_false_of_numeric l (h l (List.mem_cons_self l _))
      have hhit : kwHitB l next = false := by
        unfold kwHitB
        rw [hkw]
        rfl
      simp only [prodFirstPass, hhit, Bool.false_eq_true, if_false]
      exact ih fun x hx => h x (List.mem_cons_of_mem l hx)

lemma prodFirstPass_some_nonempty :
    ∀ (L : List (List Char)) (nx : List Char),
      prodFirstPass L = some nx → nx ≠ [] := by
  intro L
  induction L with
  | nil => intro nx h; simp [prodFirstPass] at h
  | cons l ls ih =>
    intro nx h
    cases ls with
    | nil => simp [prodFirstPass] at h
    | cons next rest =>
      by_cases hk : kwHitB l next = true
      · simp only [prodFirstPass, hk, if_true, Option.some.injEq] at h
        unfold kwHitB at hk
        rw [Bool.and_eq_true, Bool.and_eq_true] at hk
        have h2 := hk.2.1
        intro heq
        rw [h, heq] at h2
        simp at h2
      · have hkf : kwHitB l next = false := by
          revert hk; cases kwHitB l next <;> simp
        simp only [prodFirstPass, hkf, Bool.false_eq_true, if_false] at h
        exact ih nx h

lemma prodFirstPass_first_hit :
    ∀ (L : List (List Char)) (i : Nat) (li next : List Char),
      L.get? i = some li → L.get? (i + 1) = some next → kwHitB li next = true →
      (∀ j, j < i → ∀ lj nj, L.get? j = some lj → L.get? (j + 1) = some nj →
        kwHitB lj nj = false) →
      prodFirstPass L = some (trimList (removeFirstColon next)) := by
  intro L
  induction L with
  | nil => intro i li next h1; simp at h1
  | cons l ls ih =>
    intro i li next h1 h2 hk hfirst
    cases ls with
    | nil =>
      exfalso
      cases i with
      | zero => simp at h2
      | succ n => simp at h1
    | cons next0 rest =>
      cases i with
      | zero =>
        have hl : l = li := by simpa using h1
        have hn : next0 = next := by simpa using h2
        subst hl; subst hn
        simp only [prodFirstPass, hk, if_true]
      | succ n =>
        have h0 : kwHitB l next0 = false := by
          apply hfirst 0 (Nat.succ_pos n) l next0 <;> simp
        simp only [prodFirstPass, h0, Bool.false_eq_true, if_false]
        apply ih n li next
        · simpa using h1
        · simpa using h2
        · exact hk
        · intro j hj lj nj hlj hnj
          apply hfirst (j + 1) (Nat.succ_lt_succ hj) lj nj
          · simpa using hlj
          · simpa using hnj

lemma firstLongest_mem : ∀ (L : List (List Char)), L ≠ [] → firstLongest L ∈ L := by
  intro L
  induction L with
  | nil => intro h; exact absurd rfl h
  | cons l ls ih =>
    intro _
    have hstep : firstLongest (l :: ls)
        = if (firstLongest ls).length > l.length then firstLongest ls else l := rfl
    rw [hstep]
    split_ifs with hgt
    · have hls : ls ≠ [] := by
        intro heq
        rw [heq] at hgt
        simp [firstLongest] at hgt
      exact List.mem_cons_of_mem l (ih hls)
    · exact List.mem_cons_self l ls

lemma firstLongest_max :
    ∀ (L : List (List Char)) (x : List Char), x ∈ L →
      x.length ≤ (firstLongest L).length := by
  intro L
  induction L with
  | nil => intro x hx; cases hx
  | cons l ls ih =>
    intro x hx
    have hstep : firstLongest (l :: ls)
        = if (firstLongest ls).length > l.length then firstLongest ls else l := rfl
    rcases List.mem_cons.mp hx with rfl | hx
    · rw [hstep]
      split_ifs with hgt
      · exact le_of_lt hgt
      · exact le_refl _
    · rw [hstep]
      split_ifs with hgt
      · exact ih x hx
      · exact le_trans (ih x hx) (Nat.le_of_not_lt hgt)

lemma firstLongest_split :
    ∀ (L : List (List Char)), L ≠ [] →
      ∃ pre suf, L = pre ++ firstLongest L :: suf
        ∧ ∀ x ∈ pre, x.length < (firstLongest L).length := by
  intro L
  induction L with
  | nil => intro h; exact absurd rfl h
  | cons l ls ih =>
    intro _
    have hstep : firstLongest (l :: ls)
        = if (firstLongest ls).length > l.length then firstLongest ls else l := rfl
    by_cases hgt : (firstLongest ls).length > l.length
    · have hls : ls ≠ [] := by
        intro heq
        rw [heq] at hgt
        simp [firstLongest] at hgt
      rcases ih hls with ⟨pre, suf, hsplit, hpre⟩
      refine ⟨l :: pre, suf, ?_, ?_⟩
      · rw [hstep, if_pos hgt, List.cons_append, ← hsplit]
      · intro x hx
        rw [hstep, if_pos hgt]
        rcases List.mem_cons.mp hx with rfl | hx
        · exact hgt
        · exact hpre x hx
    · refine ⟨[], ls, ?_, fun x hx => absurd hx (List.not_mem_nil x)⟩
      rw [hstep, if_neg hgt]
      rfl

lemma linesOf_ne_nil (text : String) : ∀ l ∈ linesOf text, l ≠ [] := by
  intro l hl heq
  unfold linesOf at hl
  have h2 := (List.mem_filter.mp hl).2
  rw [heq] at h2
  simp at h2

/-- C7 (counterexample): with text `"product\nA: B"` the code removes the
*first colon anywhere* in the following line (`replace(/[:：]/, "")` without
the `g` flag and without anchoring), returning `"A B"`, not the claimed
"line with any leading colon stripped" `"A: B"`. -/
theorem product_colon_removed_anywhere :
    pickLikelyProduct "product\nA: B" = "A B"
    ∧ pickLikelyProduct "product\nA: B" ≠ "A: B" := by decide

/-- C7 (amended): `pickLikelyProduct` returns the empty product exactly when
every (trimmed, nonempty) line matches `^[0-9.,-]+$`; every result is at
most 60 characters; the first keyword line whose *following line, after
removing its first colon (anywhere) and re-trimming,* is nonempty and not
matching `^[0-9.,]+$` yields that processed line truncated to 60; otherwise
the result is the earliest longest line among the lines not matching
`^[0-9.,-]+$`, truncated to 60. -/
theorem product_extractor_characterization :
    (∀ text, pickLikelyProduct text = ""
      ↔ ∀ l ∈ linesOf text, numDotCommaDash l = true)
    ∧ (∀ text, (pickLikelyProduct text).length ≤ 60)
    ∧ (∀ (text : String) (li next : List Char) (i : Nat),
        (linesOf text).get? i = some li → (linesOf text).get? (i + 1) = some next →
        kwHitB li next = true →
        (∀ j, j < i → ∀ lj nj, (linesOf text).get? j = some lj →
          (linesOf text).get? (j + 1) = some nj → kwHitB lj nj = false) →
        pickLikelyProduct text = String.mk ((trimList (removeFirstColon next)).take 60))
    ∧ (∀ text, prodFirstPass (linesOf text) = none →
        pickLikelyProduct text = String.mk ((firstLongest (nonNumLines text)).take 60)
        ∧ (∀ x ∈ nonNumLines text, x.length ≤ (firstLongest (nonNumLines text)).length)
        ∧ (nonNumLines text ≠ [] → ∃ pre suf,
            nonNumLines text = pre ++ firstLongest (nonNumLines text) :: suf
            ∧ ∀ x ∈ pre, x.length < (firstLongest (nonNumLines text)).length)) := by
  refine ⟨?_, ?_, ?_, ?_⟩
  · intro text
    constructor
    · intro hempty
      by_contra hnot
      push_neg at hnot
      rcases hnot with ⟨l0, hl0, hl0n⟩
      have hl0f : numDotCommaDash l0 = false := by
        revert hl0n; cases numDotCommaDash l0 <;> simp
      have hmem : l0 ∈ nonNumLines text := by
        unfold nonNumLines
        exact List.mem_filter.mpr ⟨hl0, by rw [hl0f]; rfl⟩
      have hnn : nonNumLines text ≠ [] := fun heq => by
        rw [heq] at hmem; cases hmem
      unfold pickLikelyProduct at hempty
      cases hfp : prodFirstPass (linesOf text) with
      | some nx =>
        rw [hfp] at hempty
        have hn0 : nx ≠ [] := prodFirstPass_some_nonempty _ nx hfp
        have htake : nx.take 60 = [] := congrArg String.data hempty
        cases nxc : nx with
        | nil => exact hn0 nxc
        | cons a as => rw [nxc] at htake; simp at htake
      | none =>
        rw [hfp] at hempty
        have hfl : firstLongest (nonNumLines text) ∈ nonNumLines text :=
          firstLongest_mem _ hnn
        have hflne : firstLongest (nonNumLines text) ≠ [] := by
          have hin : firstLongest (nonNumLines text) ∈ linesOf text := by
            unfold nonNumLines at hfl
            exact (List.mem_filter.mp hfl).1
          exact linesOf_ne_nil text _ hin
        have htake : (firstLongest (nonNumLines text)).take 60 = [] :=
          congrArg String.data hempty
        cases nxc : firstLongest (nonNumLines text) with
        | nil => exact hflne nxc
        | cons a as => rw [nxc] at htake; simp at htake
    · intro hall
      have hfp : prodFirstPass (linesOf text) = none :=
        prodFirstPass_none_of_numeric _ hall
      have hnn : nonNumLines text = [] := by
        unfold nonNumLines
        rw [List.filter_eq_nil_iff]
        intro a ha
        rw [hall a ha]
        simp
      unfold pickLikelyProduct
      rw [hfp, hnn]
      rfl
  · intro text
    unfold pickLikelyProduct
    cases prodFirstPass (linesOf text) with
    | some nx =>
      show (nx.take 60).length ≤ 60
      rw [List.length_take]
      exact min_le_left _ _
    | none =>
      show ((firstLongest (nonNumLines text)).take 60).length ≤ 60
      rw [List.length_take]
      exact min_le_left _ _
  · intro text li next i h1 h2 hk hfirst
    have := prodFirstPass_first_hit (linesOf text) i li next h1 h2 hk hfirst
    unfold pickLikelyProduct
    rw [this]
  · intro text h
    unfold pickLikelyProduct
    rw [h]
    exact ⟨rfl, fun x hx => firstLongest_max _ x hx, fun hne => firstLongest_split _ hne⟩

theorem product_extractor_characterization_witness :
    pickLikelyProduct "ab\ncdef\n123"
      = String.mk ((firstLongest (nonNumLines "ab\ncdef\n123")).take 60) :=
  (product_extractor_characterization.2.2.2 "ab\ncdef\n123" (by decide)).1

/-! ## ReconciliationPipeline: `handleOCRFiles` -/

/-- `parseInvoiceText` from App.jsx (the CandidateBuilder). -/
def parseInvoiceText (text : String) : Inv :=
  { date := parseDateFromText text
    amount := pickLikelyAmount text
    price := pickLikelyPrice text
    product := pickLikelyProduct text }

/-- The recognition engine's observable behaviour for one file: the rounded
progress percentages delivered to the `logger` callback in order, and
`some text` on success or `none` when `Tesseract.recognize` throws. -/
structure OCRInput where
  name : String
  progressEvents : List Nat
  outcome : Option String
  deriving DecidableEq

/-- One entry of the `ocrItems` state; statuses are the source's strings
(`"processing"`, `"done"`, `"error"` — there is no queued status in the
source). -/
structure OCRItem where
  name : String
  status : String
  progress : Nat
  text : String
  parsed : Option Inv
  matched : Option Bool
  matchedRow : Option Row
  deriving DecidableEq

/-- The base item appended at submission:
`{ name, status:"processing", progress:0, text:"", parsed:null, match:null }`. -/
def mkBase (inp : OCRInput) : OCRItem :=
  { name := inp.name, status := "processing", progress := 0, text := "",
    parsed := none, matched := none, matchedRow := none }

/-- The `logger` update: sets `progress` only. -/
def applyProgress (it : OCRItem) (p : Nat) : OCRItem := { it with progress := p }

/-- The success update: `status:"done"`, recognized text, candidate and match
verdict set together. -/
def finishOk (ledger : List Row) (it : OCRItem) (s : String) : OCRItem :=
  { it with
    status := "done",
    text := s,
    parsed := some (parseInvoiceText s),
    matched := some (compareWithData (parseInvoiceText s) ledger).matched,
    matchedRow := (compareWithData (parseInvoiceText s) ledger).row }

/-- The `catch` update: `status:"error"`, `progress:0`; no other field is
touched. -/
def finishErr (it : OCRItem) : OCRItem :=
  { it with status := "error", progress := 0 }

/-- Processing of one item: the base item, then the progress events in
order, then the terminal update according to the recognition outcome. -/
def runItem (ledger : List Row) (inp : OCRInput) : OCRItem :=
  match inp.outcome with
  | some text => finishOk ledger (inp.progressEvents.foldl applyProgress (mkBase inp)) text
  | none => finishErr (inp.progressEvents.foldl applyProgress (mkBase inp))

/-- The whole `handleOCRFiles` loop: each item is computed from its own
input alone (the `try`/`catch` sits inside the per-file loop, so one item's
failure cannot abort or alter the others). -/
def processBatch (ledger : List Row) (inputs : List OCRInput) : List OCRItem :=
  inputs.map (runItem ledger)

/-- The successive snapshots one item goes through: the base item, one
snapshot per progress event, then the terminal snapshot. -/
def itemTrace (ledger : List Row) (inp : OCRInput) : List OCRItem :=
  inp.progressEvents.scanl applyProgress (mkBase inp) ++ [runItem ledger inp]

lemma scanl_applyProgress_status (evts : List Nat) (it : OCRItem) :
    (List.scanl applyProgress it evts).map (fun s => s.status)
      = List.replicate (evts.length + 1) it.status := by
  induction evts generalizing it with
  | nil => rfl
  | cons e es ih =>
    rw [List.scanl_cons, List.singleton_append, List.map_cons, ih (applyProgress it e)]
    rfl

lemma foldl_applyProgress_shape (evts : List Nat) (it : OCRItem) :
    ∃ p, evts.foldl applyProgress it = { it with progress := p } := by
  induction evts generalizing it with
  | nil => exact ⟨it.progress, rfl⟩
  | cons e es ih =>
    rcases ih (applyProgress it e) with ⟨p, hp⟩
    refine ⟨p, ?_⟩
    rw [List.foldl_cons, hp]
    rfl


/-- C9 (counterexample): the item created at submission time is already in
status `"processing"` — there is no `"queued"` state in the source. -/
theorem no_queued_state :
    (mkBase ⟨"inv.png", [], none⟩).status = "processing"
    ∧ (mkBase ⟨"inv.png", [], none⟩).status ≠ "queued" := by decide

/-- C9 (amended): every item is created directly in `Processing` (no Queued
state exists); its status stays `"processing"` through every progress event
and becomes the terminal `"done"` or `"error"` — according to the
recognition outcome — exactly at the last snapshot, so a terminal state is
never left. -/
theorem item_lifecycle (ledger : List Row) (inp : OCRInput) :
    (itemTrace ledger inp).map (fun it => it.status)
      = List.replicate (inp.progressEvents.length + 1) "processing"
        ++ [if inp.outcome.isSome then "done" else "error"] := by
  unfold itemTrace
  rw [List.map_append, scanl_applyProgress_status]
  have hterm : (runItem ledger inp).status
      = if inp.outcome.isSome then "done" else "error" := by
    unfold runItem
    cases inp.outcome with
    | some t => rfl
    | none => rfl
  rw [List.map_cons, List.map_nil, hterm]
  rfl

/-- C8: when recognition fails for item `i`, that item ends in status
`"error"` with progress reset to 0 and no candidate, verdict or matched
entry; and every other item of the batch is still computed from its own
input exactly as if the failure had not happened. -/
theorem recognition_failure_isolated (ledger : List Row) (inputs : List OCRInput)
    (i : Nat) (inp : OCRInput) (hi : inputs.get? i = some inp)
    (hfail : inp.outcome = none) :
    (processBatch ledger inputs).get? i
        = some { name := inp.name, status := "error", progress := 0, text := "",
                 parsed := none, matched := none, matchedRow := none }
    ∧ ∀ j, j ≠ i →
        (processBatch ledger inputs).get? j = (inputs.get? j).map (runItem ledger) := by
  constructor
  · unfold processBatch
    rcases foldl_applyProgress_shape inp.progressEvents (mkBase inp) with ⟨p, hp⟩
    have hrun : runItem ledger inp
        = { name := inp.name, status := "error", progress := 0, text := "",
            parsed := none, matched := none, matchedRow := none } := by
      unfold runItem
      rw [hfail, hp]
      rfl
    rw [List.get?_map, hi]
    rw [show Option.map (runItem ledger) (some inp) = some (runItem ledger inp) from rfl,
      hrun]
  · intro j _
    unfold processBatch
    rw [List.get?_map]

theorem recognition_failure_isolated_witness :
    (processBatch [] [⟨"a.png", [37], none⟩, ⟨"b.png", [], some "x"⟩]).get? 0
        = some { name := "a.png", status := "error", progress := 0, text := "",
                 parsed := none, matched := none, matchedRow := none }
    ∧ ∀ j, j ≠ 0 →
        (processBatch [] [⟨"a.png", [37], none⟩, ⟨"b.png", [], some "x"⟩]).get? j
          = ([(⟨"a.png", [37], none⟩ : OCRInput), ⟨"b.png", [], some "x"⟩].get? j).map
              (runItem []) :=
  recognition_failure_isolated [] [⟨"a.png", [37], none⟩, ⟨"b.png", [], some "x"⟩]
    0 ⟨"a.png", [37], none⟩ rfl rfl

end SalesDash
